import Mathlib

/-!
Verification of the PitchToMidi sketch
(`ArduinoSound_Examples/PitchToMidi/PitchToMidi.ino`).

The sketch's only original logic is `findMidiNoteFromPitches(int lowPitch,
int highPitch)` (lines 118-139), a linear scan over the 127-entry
`pitchFrequency` table, together with the loudest-band scan in `loop()`
(lines 82-95).  Both are embedded shallowly:

* `float` values (table entries, band edges) are modelled exactly as
  rationals `ℚ`;
* C `int` values are modelled as unbounded `ℤ` (no input considered here
  overflows a 32-bit int);
* the conversion `int diff = abs(lowPitch - pitchFrequency[x])` truncates
  the nonnegative float toward zero on assignment to `int`, which for a
  nonnegative value is the floor, modelled by `Int.floor`;
* `Serial` printing touches no variable and is dropped.

The `pitchFrequency` table itself comes from the MIDIUSB library header
`pitchToFrequency.h`, which is not part of this repository; the finder is
therefore embedded as a function of an arbitrary table `ℕ → ℚ` (only
indices `0..126` are ever read), matching the specification's contract
`findNearestIndex(lowBound, highBound, table)`.
-/

namespace PitchToMidi

/-- `const int sampleRate = 8400` (line 28). -/
def sampleRate : ℤ := 8400

/-- `const int fftSize = 128` (line 31). -/
def fftSize : ℤ := 128

/-- `const int spectrumSize = fftSize / 2` (line 34), i.e. 64. -/
def spectrumSize : ℕ := 64

/-- `int diff = abs(lowPitch - pitchFrequency[x])` (line 129): the absolute
difference between the (integer) `lowPitch` and the float table entry,
truncated toward zero on conversion to `int`; since the value is
nonnegative, truncation toward zero is the floor. -/
def diffAt (table : ℕ → ℚ) (lowPitch : ℤ) (x : ℕ) : ℤ :=
  ⌊|(lowPitch : ℚ) - table x|⌋

/-- The local state of the `for` loop of `findMidiNoteFromPitches`
(lines 120-136): loop counter `x`, `int lastDiff`, `int desiredMidiNote`. -/
structure FinderState where
  x : ℕ
  lastDiff : ℤ
  desiredMidiNote : ℤ
deriving DecidableEq

/-- State on entry to the loop: `int lastDiff = 32000; int desiredMidiNote = -1;`
(lines 120, 122). -/
def finderInit : FinderState := ⟨0, 32000, -1⟩

/-- One iteration of the loop body (lines 124-136): compute `diff`, record
the index when `diff < lastDiff` (lines 131-133), then unconditionally
overwrite `lastDiff` with `diff` (line 135).  The `Serial.println` on lines
125-127 — the only place `highPitch` is read — writes no variable and is
dropped. -/
def finderStep (table : ℕ → ℚ) (lowPitch : ℤ) (s : FinderState) : FinderState :=
  let diff := diffAt table lowPitch s.x
  { x := s.x + 1
    lastDiff := diff
    desiredMidiNote := if diff < s.lastDiff then (s.x : ℤ) else s.desiredMidiNote }

/-- `int findMidiNoteFromPitches(int lowPitch, int highPitch)` (lines
118-139): run the loop body 127 times (`for (int x = 0; x < 127; x++)`)
from the initial state and return `desiredMidiNote`.  The table is passed
explicitly; in the sketch it is the global `pitchFrequency` array from the
MIDIUSB library header. -/
def findMidiNoteFromPitches (table : ℕ → ℚ) (lowPitch highPitch : ℤ) : ℤ :=
  ((finderStep table lowPitch)^[127] finderInit).desiredMidiNote

/-- The value held by `lastDiff` when the loop body starts iteration `x`:
the sentinel `32000` before the first iteration, afterwards the previous
iteration's difference (line 135 overwrites it on every iteration). -/
def prevDiff (table : ℕ → ℚ) (lowPitch : ℤ) : ℕ → ℤ
  | 0 => 32000
  | x + 1 => diffAt table lowPitch x

/-- Index `x` is written into `desiredMidiNote` exactly when its difference
is strictly below the difference of the immediately preceding iteration
(`if (diff < lastDiff)`, line 131). -/
def recorded (table : ℕ → ℚ) (lowPitch : ℤ) (x : ℕ) : Prop :=
  diffAt table lowPitch x < prevDiff table lowPitch x

instance (table : ℕ → ℚ) (lowPitch : ℤ) (x : ℕ) :
    Decidable (recorded table lowPitch x) :=
  inferInstanceAs (Decidable (_ < _))

/-- The last index `< n` that was recorded, or `-1` when none was. -/
def lastRecordedBelow (table : ℕ → ℚ) (lowPitch : ℤ) : ℕ → ℤ
  | 0 => -1
  | n + 1 =>
    if recorded table lowPitch n then (n : ℤ) else lastRecordedBelow table lowPitch n

/-- The serial output performed by the scan itself (lines 125-127):
`if (pitchFrequency[x] >= lowPitch && pitchFrequency[x] <= highPitch)
Serial.println(pitchFrequency[x]);` — the sequence of table entries printed,
in scan order.  The comparisons promote the `int` bounds to `float`.  This
output is the only effect of the function besides its return value and does
not touch any variable. -/
def printedPitches (table : ℕ → ℚ) (lowPitch highPitch : ℤ) : List ℚ :=
  ((List.range 127).filter
    (fun x => decide ((lowPitch : ℚ) ≤ table x ∧ table x ≤ (highPitch : ℚ)))).map table

/-- Modelled from the spec: the fixed ascending 127-entry reference table of
canonical pitch frequencies.  The actual `pitchFrequency` values live in the
MIDIUSB header `pitchToFrequency.h`, which is not part of this repository;
the specification's concrete scenario 1 (§8) uses the ascending table
`[0, 100, 200, ..., 12600]`, adopted here. -/
def pitchFrequency (x : ℕ) : ℚ := 100 * (x : ℚ)

/-- A table whose difference sequence from `lowPitch = 0` is
`5, 1, 7, 6, 104, 105, ...`: the difference strictly decreases for the last
time at index 3, while the globally smallest difference is at index 1. -/
def tableLocalDip (x : ℕ) : ℚ :=
  if x = 0 then 5 else if x = 1 then 1 else if x = 2 then 7
  else if x = 3 then 6 else 100 + (x : ℚ)

/-- A table whose difference sequence from `lowPitch = 0` is
`5, 1, 1, 7, 6, 105, 106, ...`: indices 1 and 2 tie at the globally smallest
difference 1, and the last strict decrease is at index 4. -/
def tableTie (x : ℕ) : ℚ :=
  if x = 0 then 5 else if x = 1 then 1 else if x = 2 then 1
  else if x = 3 then 7 else if x = 4 then 6 else 100 + (x : ℚ)

/-- A strictly ascending table whose consecutive entries differ by 1/10, so
that consecutive truncated differences from a distant `lowPitch` often
coincide. -/
def tableTenths (x : ℕ) : ℚ := (x : ℚ) / 10

/-- Entries at (rational) distances 1.9 and 2.1 from `lowPitch = 0`. -/
def tableNearTwo (x : ℕ) : ℚ :=
  if x = 0 then 19 / 10 else if x = 1 then 21 / 10 else 100 + (x : ℚ)

/-- Table `x ↦ x/2`. -/
def tableHalf (x : ℕ) : ℚ := (x : ℚ) / 2

/-- Table `x ↦ x/2 + 1/4`: entry-by-entry distances from `lowPitch = 0`
truncate to the same integers as those of `tableHalf`. -/
def tableHalfShift (x : ℕ) : ℚ := (x : ℚ) / 2 + 1 / 4

/-- `float freqLow = (b * float(sampleRate)) / fftSize` (line 92). -/
def bandLow (b : ℕ) : ℚ := ((b : ℚ) * (sampleRate : ℚ)) / (fftSize : ℚ)

/-- `float freqHigh = ((b + 1) * float(sampleRate)) / fftSize` (line 93). -/
def bandHigh (b : ℕ) : ℚ := (((b : ℚ) + 1) * (sampleRate : ℚ)) / (fftSize : ℚ)

/-- The local state of the loudest-band scan in `loop()` (lines 82-95):
`int loudestSample`, `float freqLow`, `float freqHigh`. -/
structure LoudState where
  loudestSample : ℤ
  freqLow : ℚ
  freqHigh : ℚ
deriving DecidableEq

/-- `int loudestSample = 0; float freqLow = 0; float freqHigh = 0;`
(lines 82-84). -/
def loudInit : LoudState := ⟨0, 0, 0⟩

/-- One iteration of the band scan (lines 86-95):
`if (spectrum[b] >= loudestSample)` update all three variables. -/
def loudStep (spectrum : ℕ → ℤ) (s : LoudState) (b : ℕ) : LoudState :=
  if s.loudestSample ≤ spectrum b then ⟨spectrum b, bandLow b, bandHigh b⟩ else s

/-- The whole scan `for (int b = 0; b < spectrumSize; b++)` (line 86). -/
def scanLoudest (spectrum : ℕ → ℤ) : LoudState :=
  (List.range spectrumSize).foldl (loudStep spectrum) loudInit

/-- The greatest index `≤ n` attaining the maximum of `spectrum` over
`[0, n]` (ties resolved to the higher index, as `>=` does). -/
def lastMaxIndex (spectrum : ℕ → ℤ) : ℕ → ℕ
  | 0 => 0
  | n + 1 =>
    if spectrum (lastMaxIndex spectrum n) ≤ spectrum (n + 1) then n + 1
    else lastMaxIndex spectrum n

/-! ## Helper lemmas -/

theorem lastRecordedBelow_succ (table : ℕ → ℚ) (lowPitch : ℤ) (n : ℕ) :
    lastRecordedBelow table lowPitch (n + 1) =
      if recorded table lowPitch n then (n : ℤ)
      else lastRecordedBelow table lowPitch n := rfl

theorem prevDiff_succ (table : ℕ → ℚ) (lowPitch : ℤ) (n : ℕ) :
    prevDiff table lowPitch (n + 1) = diffAt table lowPitch n := rfl

theorem lastMaxIndex_succ (spectrum : ℕ → ℤ) (n : ℕ) :
    lastMaxIndex spectrum (n + 1) =
      if spectrum (lastMaxIndex spectrum n) ≤ spectrum (n + 1) then n + 1
      else lastMaxIndex spectrum n := rfl

/-- Loop invariant of the finder: after `n` iterations the counter is `n`,
`lastDiff` holds `prevDiff n`, and `desiredMidiNote` holds the last
recorded index below `n`. -/
theorem finderStep_iterate (table : ℕ → ℚ) (lowPitch : ℤ) (n : ℕ) :
    (finderStep table lowPitch)^[n] finderInit =
      ⟨n, prevDiff table lowPitch n, lastRecordedBelow table lowPitch n⟩ := by
  induction n with
  | zero => rfl
  | succ n ih =>
    rw [Function.iterate_succ_apply', ih]
    simp only [finderStep, prevDiff, lastRecordedBelow, recorded]

/-- Closed form of the finder: it returns the last index at which the
difference strictly decreased relative to the preceding iteration. -/
theorem findMidiNote_eq_lastRecorded (table : ℕ → ℚ) (lowPitch highPitch : ℤ) :
    findMidiNoteFromPitches table lowPitch highPitch =
      lastRecordedBelow table lowPitch 127 := by
  unfold findMidiNoteFromPitches
  rw [finderStep_iterate]

theorem lastRecordedBelow_range (table : ℕ → ℚ) (lowPitch : ℤ) (n : ℕ) :
    lastRecordedBelow table lowPitch n = -1 ∨
      (0 ≤ lastRecordedBelow table lowPitch n ∧
        lastRecordedBelow table lowPitch n < (n : ℤ)) := by
  induction n with
  | zero => left; rfl
  | succ n ih =>
    rw [lastRecordedBelow_succ]
    by_cases h : recorded table lowPitch n
    · rw [if_pos h]; right; constructor <;> omega
    · rw [if_neg h]
      rcases ih with h1 | ⟨h1, h2⟩
      · left; exact h1
      · right; constructor
        · exact h1
        · omega

theorem lastRecordedBelow_eq_neg_one_iff (table : ℕ → ℚ) (lowPitch : ℤ) (n : ℕ) :
    lastRecordedBelow table lowPitch n = -1 ↔
      ∀ x, x < n → ¬ recorded table lowPitch x := by
  induction n with
  | zero => simp [lastRecordedBelow]
  | succ n ih =>
    rw [lastRecordedBelow_succ]
    by_cases h : recorded table lowPitch n
    · rw [if_pos h]
      constructor
      · intro hn; omega
      · intro hall; exact absurd h (hall n (Nat.lt_succ_self n))
    · rw [if_neg h, ih]
      constructor
      · intro hall x hx
        rcases Nat.lt_succ_iff_lt_or_eq.mp hx with h1 | rfl
        · exact hall x h1
        · exact h
      · intro hall x hx
        exact hall x (hx.trans (Nat.lt_succ_self n))

/-- The result depends on the table only through the truncated differences
at indices below the scan bound. -/
theorem lastRecordedBelow_congr (table tbl2 : ℕ → ℚ) (lowPitch : ℤ) (n : ℕ)
    (h : ∀ x, x < n → diffAt table lowPitch x = diffAt tbl2 lowPitch x) :
    lastRecordedBelow table lowPitch n = lastRecordedBelow tbl2 lowPitch n := by
  induction n with
  | zero => rfl
  | succ n ih =>
    have hrec : recorded table lowPitch n ↔ recorded tbl2 lowPitch n := by
      match n with
      | 0 => simp only [recorded, prevDiff, h 0 (by omega)]
      | m + 1 =>
        simp only [recorded, prevDiff, h m (by omega), h (m + 1) (by omega)]
    rw [lastRecordedBelow_succ, lastRecordedBelow_succ,
      ih (fun x hx => h x (hx.trans (Nat.lt_succ_self n)))]
    by_cases hr : recorded table lowPitch n
    · rw [if_pos hr, if_pos (hrec.mp hr)]
    · rw [if_neg hr, if_neg (fun c => hr (hrec.mpr c))]

/-- In a strictly ascending table every entry is at most the last entry. -/
theorem table_le_last (table : ℕ → ℚ)
    (hmono : ∀ x, x < 126 → table x < table (x + 1)) :
    ∀ y, y ≤ 126 → table y ≤ table 126 := by
  have step : ∀ d y, y + d ≤ 126 → table y ≤ table (y + d) := by
    intro d
    induction d with
    | zero => intro y _; exact le_rfl
    | succ d ih =>
      intro y h
      have h1 : table y ≤ table (y + d) := ih y (by omega)
      have h2 : table (y + d) < table (y + d + 1) := hmono (y + d) (by omega)
      exact h1.trans h2.le
  intro y hy
  have h := step (126 - y) y (by omega)
  rwa [show y + (126 - y) = 126 by omega] at h

theorem lastMaxIndex_le (spectrum : ℕ → ℤ) (n : ℕ) :
    lastMaxIndex spectrum n ≤ n := by
  induction n with
  | zero => exact Nat.le_refl 0
  | succ n ih =>
    rw [lastMaxIndex_succ]
    by_cases hc : spectrum (lastMaxIndex spectrum n) ≤ spectrum (n + 1)
    · rw [if_pos hc]
    · rw [if_neg hc]; omega

theorem lastMaxIndex_is_max (spectrum : ℕ → ℤ) (n : ℕ) :
    ∀ b, b ≤ n → spectrum b ≤ spectrum (lastMaxIndex spectrum n) := by
  induction n with
  | zero =>
    intro b hb
    have hb0 : b = 0 := Nat.le_zero.mp hb
    subst hb0; exact le_rfl
  | succ n ih =>
    intro b hb
    rw [lastMaxIndex_succ]
    by_cases hc : spectrum (lastMaxIndex spectrum n) ≤ spectrum (n + 1)
    · rw [if_pos hc]
      by_cases hb2 : b ≤ n
      · exact (ih b hb2).trans hc
      · have hb3 : b = n + 1 := by omega
        subst hb3; exact le_rfl
    · rw [if_neg hc]
      by_cases hb2 : b ≤ n
      · exact ih b hb2
      · have hb3 : b = n + 1 := by omega
        subst hb3; exact (not_le.mp hc).le

theorem lastMaxIndex_greatest (spectrum : ℕ → ℤ) (n : ℕ) :
    ∀ b, lastMaxIndex spectrum n < b → b ≤ n →
      spectrum b < spectrum (lastMaxIndex spectrum n) := by
  induction n with
  | zero =>
    intro b h1 h2
    have h0 : lastMaxIndex spectrum 0 = 0 := rfl
    omega
  | succ n ih =>
    intro b h1 h2
    rw [lastMaxIndex_succ] at h1 ⊢
    by_cases hc : spectrum (lastMaxIndex spectrum n) ≤ spectrum (n + 1)
    · rw [if_pos hc] at h1 ⊢
      exact absurd h1 (by omega)
    · rw [if_neg hc] at h1 ⊢
      by_cases hb2 : b ≤ n
      · exact ih b h1 hb2
      · have hb3 : b = n + 1 := by omega
        subst hb3; exact not_le.mp hc

/-- Loop invariant of the band scan: after bands `0..n` are processed the
state holds the amplitude and band edges of the greatest index attaining
the maximum (all amplitudes being nonnegative). -/
theorem scanLoudest_invariant (spectrum : ℕ → ℤ) (n : ℕ)
    (h : ∀ b, b ≤ n → 0 ≤ spectrum b) :
    (List.range (n + 1)).foldl (loudStep spectrum) loudInit =
      ⟨spectrum (lastMaxIndex spectrum n), bandLow (lastMaxIndex spectrum n),
        bandHigh (lastMaxIndex spectrum n)⟩ := by
  induction n with
  | zero =>
    simp only [List.range_succ, List.range_zero, List.nil_append,
      List.foldl_cons, List.foldl_nil, loudStep, loudInit]
    rw [if_pos (h 0 (Nat.le_refl 0))]
    rfl
  | succ n ih =>
    rw [List.range_succ, List.foldl_append,
      ih (fun b hb => h b (hb.trans (Nat.le_succ n)))]
    simp only [List.foldl_cons, List.foldl_nil, loudStep, lastMaxIndex_succ]
    by_cases hc : spectrum (lastMaxIndex spectrum n) ≤ spectrum (n + 1)
    · rw [if_pos hc, if_pos hc]
    · rw [if_neg hc, if_neg hc]

/-! ## Claim theorems -/

set_option maxRecDepth 100000 in
unseal Rat.add Rat.sub Rat.mul Rat.inv in
/-- C1: the spec's scan ("record an index exactly when its difference is
strictly less than the running best; equivalently return the first index
attaining the globally minimal difference") is NOT what the code computes:
for `tableLocalDip` and `lowBound = 0` (differences `5, 1, 7, 6, 104, ...`)
the code returns 3, although index 1 attains the globally minimal
difference (`diffAt 1 = 1 ≤` every difference, and strictly below
`diffAt 3 = 6`).  The code contradicts its own comments ("smallest
difference so far", "closest") because line 135 overwrites `lastDiff`
unconditionally. -/
theorem claim1_running_best_violated :
    findMidiNoteFromPitches tableLocalDip 0 0 = 3
    ∧ (∀ y, y < 127 → diffAt tableLocalDip 0 1 ≤ diffAt tableLocalDip 0 y)
    ∧ diffAt tableLocalDip 0 1 < diffAt tableLocalDip 0 3 := by
  refine ⟨by decide, by decide, by decide⟩

set_option maxRecDepth 100000 in
unseal Rat.add Rat.sub Rat.mul Rat.inv in
/-- C2: the tie-break policy ("the first index achieving the minimum
difference wins ties") is NOT what the code delivers: for `tableTie` and
`lowBound = 0` (differences `5, 1, 1, 7, 6, 105, ...`) indices 1 and 2 are
equally close and globally minimal, yet the code returns 4, whose
difference is strictly larger. -/
theorem claim2_tie_break_violated :
    findMidiNoteFromPitches tableTie 0 0 = 4
    ∧ diffAt tableTie 0 1 = diffAt tableTie 0 2
    ∧ (∀ y, y < 127 → diffAt tableTie 0 1 ≤ diffAt tableTie 0 y)
    ∧ diffAt tableTie 0 1 < diffAt tableTie 0 4 := by
  refine ⟨by decide, by decide, by decide, by decide⟩

set_option maxRecDepth 100000 in
unseal Rat.add Rat.sub Rat.mul Rat.inv in
/-- C3: because line 135 overwrites `lastDiff` on every iteration, an index
is recorded exactly when its difference is strictly smaller than the
immediately preceding index's difference (`recorded`), and the function
returns the last such index (`lastRecordedBelow`); for some tables
(e.g. `tableLocalDip` with `lowBound = 0`, where the result 3 has a larger
difference than index 1) the result is not an index of globally minimal
difference. -/
theorem claim3_local_decrease_semantics :
    (∀ (table : ℕ → ℚ) (lowPitch highPitch : ℤ),
      findMidiNoteFromPitches table lowPitch highPitch =
        lastRecordedBelow table lowPitch 127)
    ∧ (∀ (table : ℕ → ℚ) (lowPitch : ℤ) (x : ℕ),
      recorded table lowPitch x ↔
        diffAt table lowPitch x < prevDiff table lowPitch x)
    ∧ findMidiNoteFromPitches tableLocalDip 0 0 = 3
    ∧ diffAt tableLocalDip 0 1 < diffAt tableLocalDip 0 3 :=
  ⟨findMidiNote_eq_lastRecorded, fun _ _ _ => Iff.rfl, by decide, by decide⟩

set_option maxRecDepth 100000 in
unseal Rat.add Rat.sub Rat.mul Rat.inv in
/-- C4 counterexample: with the spec-modelled fixed 127-entry pitch table
and the finite bound `lowBound = -32000`, every difference is at least the
initial sentinel `32000` and the differences never strictly decrease, so no
candidate is ever recorded and the function returns `-1` — refuting
"findMidiNoteFromPitches never returns -1 for any finite bounds". -/
theorem claim4_counterexample :
    findMidiNoteFromPitches pitchFrequency (-32000) 0 = -1 := by
  decide

/-- C4 (amended): `-1` is returned exactly when no candidate index was ever
recorded; whenever the very first difference is below the `32000` sentinel
(in particular for every caller-produced bound, which lies within the audio
range) the function cannot return `-1`. -/
theorem claim4_sentinel_reachability (table : ℕ → ℚ) (lowPitch highPitch : ℤ) :
    (findMidiNoteFromPitches table lowPitch highPitch = -1 ↔
      ∀ x, x < 127 → ¬ recorded table lowPitch x)
    ∧ (diffAt table lowPitch 0 < 32000 →
      findMidiNoteFromPitches table lowPitch highPitch ≠ -1) := by
  constructor
  · rw [findMidiNote_eq_lastRecorded]
    exact lastRecordedBelow_eq_neg_one_iff table lowPitch 127
  · intro h0 hcontra
    rw [findMidiNote_eq_lastRecorded] at hcontra
    have hnone := (lastRecordedBelow_eq_neg_one_iff table lowPitch 127).mp hcontra
    exact hnone 0 (by omega) h0

set_option maxRecDepth 100000 in
unseal Rat.add Rat.sub Rat.mul Rat.inv in
theorem claim4_witness :
    findMidiNoteFromPitches pitchFrequency 0 0 ≠ -1 :=
  (claim4_sentinel_reachability pitchFrequency 0 0).2 (by decide)

/-- C5: for every table and all finite bounds the returned value is an
integer in `[0, 126]` or equals `-1`; never any other value. -/
theorem claim5_result_range (table : ℕ → ℚ) (lowPitch highPitch : ℤ) :
    (0 ≤ findMidiNoteFromPitches table lowPitch highPitch ∧
      findMidiNoteFromPitches table lowPitch highPitch ≤ 126)
    ∨ findMidiNoteFromPitches table lowPitch highPitch = -1 := by
  rw [findMidiNote_eq_lastRecorded]
  rcases lastRecordedBelow_range table lowPitch 127 with h | ⟨h1, h2⟩
  · right; exact h
  · left; exact ⟨h1, by omega⟩

/-- C6: `highPitch` has no effect on the result: the decision on line 131
compares only against `lowPitch`, and the sole read of `highPitch`
(lines 125-127) feeds a `Serial` print. -/
theorem claim6_highBound_irrelevant (table : ℕ → ℚ) (lowPitch h1 h2 : ℤ) :
    findMidiNoteFromPitches table lowPitch h1 =
      findMidiNoteFromPitches table lowPitch h2 := rfl

set_option maxRecDepth 100000 in
unseal Rat.add Rat.sub Rat.mul Rat.inv in
/-- C7 counterexample: `tableTenths` is a strictly ascending 127-entry
table, yet with `lowBound = 10^9` the function returns 121, not the last
index 126 — consecutive entries 1/10 apart usually leave the truncated
difference unchanged, so index 126 is never recorded. -/
theorem claim7_counterexample :
    (∀ x, x < 126 → tableTenths x < tableTenths (x + 1))
    ∧ findMidiNoteFromPitches tableTenths (10 ^ 9) 0 = 121
    ∧ findMidiNoteFromPitches tableTenths (10 ^ 9) 0 ≠ 126 := by
  refine ⟨by decide, by decide, by decide⟩

/-- C7 (amended): for an ascending table whose entries stay below `10^9`
and whose last two entries differ by at least 1 (as integer-valued
ascending tables do), `lowBound = 10^9` yields the last index 126, which
attains the globally smallest truncated difference. -/
theorem claim7_far_low_returns_last (table : ℕ → ℚ) (highPitch : ℤ)
    (hmono : ∀ x, x < 126 → table x < table (x + 1))
    (hb : ∀ x, x < 127 → table x < 10 ^ 9)
    (hgap : table 125 + 1 ≤ table 126) :
    findMidiNoteFromPitches table (10 ^ 9) highPitch = 126
    ∧ ∀ y, y < 127 →
      diffAt table (10 ^ 9) 126 ≤ diffAt table (10 ^ 9) y := by
  have hcast : (((10 ^ 9 : ℤ) : ℚ)) = 10 ^ 9 := by push_cast; ring
  have key : ∀ x, x < 127 →
      diffAt table (10 ^ 9) x = ⌊(10 ^ 9 : ℚ) - table x⌋ := by
    intro x hx
    unfold diffAt
    rw [hcast, abs_of_nonneg (sub_nonneg.mpr (hb x hx).le)]
  have hrec : recorded table (10 ^ 9) 126 := by
    show diffAt table (10 ^ 9) 126 < prevDiff table (10 ^ 9) 126
    rw [show prevDiff table (10 ^ 9) 126 = diffAt table (10 ^ 9) 125 from rfl,
      key 126 (by omega), key 125 (by omega)]
    have hle : (10 ^ 9 : ℚ) - table 126 ≤ ((10 ^ 9 : ℚ) - table 125) - 1 := by
      linarith
    calc ⌊(10 ^ 9 : ℚ) - table 126⌋
        ≤ ⌊((10 ^ 9 : ℚ) - table 125) - 1⌋ := Int.floor_le_floor hle
      _ = ⌊(10 ^ 9 : ℚ) - table 125⌋ - 1 := Int.floor_sub_one _
      _ < ⌊(10 ^ 9 : ℚ) - table 125⌋ := by omega
  constructor
  · rw [findMidiNote_eq_lastRecorded,
      show (127 : ℕ) = 126 + 1 from rfl, lastRecordedBelow_succ, if_pos hrec]
    norm_num
  · intro y hy
    rw [key 126 (by omega), key y hy]
    apply Int.floor_le_floor
    have := table_le_last table hmono y (by omega)
    linarith

set_option maxRecDepth 100000 in
unseal Rat.add Rat.sub Rat.mul Rat.inv in
theorem claim7_witness :
    findMidiNoteFromPitches (fun x => (x : ℚ)) (10 ^ 9) 0 = 126
    ∧ ∀ y, y < 127 →
      diffAt (fun x => (x : ℚ)) (10 ^ 9) 126 ≤ diffAt (fun x => (x : ℚ)) (10 ^ 9) y :=
  claim7_far_low_returns_last (fun x => (x : ℚ)) 0
    (by decide) (by decide) (by decide)

set_option maxRecDepth 100000 in
unseal Rat.add Rat.sub Rat.mul Rat.inv in
/-- C8 counterexample: the scan is NOT free of I/O: line 126, inside the
loop, prints every table entry lying within `[lowPitch, highPitch]`.  With
the spec-modelled pitch table and the ordinary bounds `[0, 200]` the scan
emits three serial prints (the entries 0, 100 and 200), refuting the "no
I/O, no blocking calls" conjunct. -/
theorem claim8_counterexample :
    printedPitches pitchFrequency 0 200 = [0, 100, 200]
    ∧ printedPitches pitchFrequency 0 200 ≠ [] := by
  refine ⟨by decide, by decide⟩

/-- C8 (amended): the function is a fixed-length computation: it equals the
127-fold iteration of the (total) loop body on the initial state, and after
`n` iterations the loop counter is exactly `n` — the scan performs exactly
127 iterations, with no state surviving between calls (fresh `finderInit`
each call); but it is silent (performs no serial output) only when no table
entry lies within `[lowPitch, highPitch]` — otherwise line 126 prints each
in-band entry. -/
theorem claim8_fixed_iteration_count (table : ℕ → ℚ) (lowPitch highPitch : ℤ) :
    (findMidiNoteFromPitches table lowPitch highPitch =
      ((finderStep table lowPitch)^[127] finderInit).desiredMidiNote)
    ∧ (∀ n : ℕ, ((finderStep table lowPitch)^[n] finderInit).x = n)
    ∧ (printedPitches table lowPitch highPitch = [] ↔
      ∀ x, x < 127 →
        ¬ ((lowPitch : ℚ) ≤ table x ∧ table x ≤ (highPitch : ℚ))) := by
  refine ⟨rfl, fun n => ?_, ?_⟩
  · rw [finderStep_iterate]
  · unfold printedPitches
    rw [List.map_eq_nil_iff, List.filter_eq_nil_iff]
    simp only [List.mem_range, decide_eq_true_eq]

set_option maxRecDepth 100000 in
unseal Rat.add Rat.sub Rat.mul Rat.inv in
/-- C9 counterexample: the table entries of `tableNearTwo` lie at distances
`1.9` and `2.1` from `lowPitch = 0` — the distances differ by `0.2 < 1` —
yet their truncated integer differences are 1 and 2, refuting "any two
table entries whose distances to lowPitch differ by less than 1 yield equal
integer differences". -/
theorem claim9_counterexample :
    |(|((0 : ℤ) : ℚ) - tableNearTwo 0|) - (|((0 : ℤ) : ℚ) - tableNearTwo 1|)| < 1
    ∧ diffAt tableNearTwo 0 0 ≠ diffAt tableNearTwo 0 1 := by
  refine ⟨by decide, by decide⟩

/-- C9 (amended): only the truncated integer part of each distance matters —
two tables whose distances to `lowPitch` truncate to the same integers at
every scanned index produce identical results — and an index whose
truncated difference merely equals that of its predecessor is not recorded
(it does not overwrite the candidate). -/
theorem claim9_truncation_granularity (table tbl2 : ℕ → ℚ) (lowPitch highPitch : ℤ)
    (h : ∀ x, x < 127 → diffAt table lowPitch x = diffAt tbl2 lowPitch x) :
    findMidiNoteFromPitches table lowPitch highPitch =
      findMidiNoteFromPitches tbl2 lowPitch highPitch
    ∧ ∀ x, diffAt table lowPitch (x + 1) = diffAt table lowPitch x →
      ¬ recorded table lowPitch (x + 1) := by
  constructor
  · rw [findMidiNote_eq_lastRecorded, findMidiNote_eq_lastRecorded]
    exact lastRecordedBelow_congr table tbl2 lowPitch 127 h
  · intro x heq hrec
    have hlt : diffAt table lowPitch (x + 1) < diffAt table lowPitch x := by
      have := hrec
      rwa [recorded, prevDiff_succ] at this
    omega

set_option maxRecDepth 100000 in
unseal Rat.add Rat.sub Rat.mul Rat.inv in
theorem claim9_witness :
    findMidiNoteFromPitches tableHalf 0 0 = findMidiNoteFromPitches tableHalfShift 0 0
    ∧ ¬ recorded tableHalf 0 1 :=
  ⟨(claim9_truncation_granularity tableHalf tableHalfShift 0 0 (by decide)).1,
   (claim9_truncation_granularity tableHalf tableHalfShift 0 0 (by decide)).2 0 (by decide)⟩

/-- C10: the band scan compares with `>=`, so among bands sharing the
maximal (nonnegative) amplitude the one with the highest index supplies the
reported amplitude and the band edges `freqLow`/`freqHigh`; for an all-zero
spectrum the reported band is the last one, index `spectrumSize - 1`. -/
theorem claim10_loudest_band_selection (spectrum : ℕ → ℤ)
    (h : ∀ b, b < spectrumSize → 0 ≤ spectrum b) :
    scanLoudest spectrum =
      ⟨spectrum (lastMaxIndex spectrum 63), bandLow (lastMaxIndex spectrum 63),
        bandHigh (lastMaxIndex spectrum 63)⟩
    ∧ (∀ b, b ≤ 63 → spectrum b ≤ spectrum (lastMaxIndex spectrum 63))
    ∧ (∀ b, lastMaxIndex spectrum 63 < b → b ≤ 63 →
        spectrum b < spectrum (lastMaxIndex spectrum 63))
    ∧ scanLoudest (fun _ => 0) =
        ⟨0, bandLow (spectrumSize - 1), bandHigh (spectrumSize - 1)⟩ := by
  refine ⟨?_, lastMaxIndex_is_max spectrum 63, lastMaxIndex_greatest spectrum 63, ?_⟩
  · show (List.range (63 + 1)).foldl (loudStep spectrum) loudInit = _
    exact scanLoudest_invariant spectrum 63
      (fun b hb => h b (by simp only [spectrumSize]; omega))
  · have hz : (List.range (63 + 1)).foldl (loudStep (fun _ => (0 : ℤ))) loudInit =
        ⟨(fun _ => (0 : ℤ)) (lastMaxIndex (fun _ => (0 : ℤ)) 63),
          bandLow (lastMaxIndex (fun _ => (0 : ℤ)) 63),
          bandHigh (lastMaxIndex (fun _ => (0 : ℤ)) 63)⟩ :=
      scanLoudest_invariant (fun _ => (0 : ℤ)) 63 (fun b _ => le_rfl)
    have hidx : lastMaxIndex (fun _ => (0 : ℤ)) 63 = 63 := by decide
    rw [hidx] at hz
    exact hz

theorem claim10_witness :
    scanLoudest (fun _ => 0) =
      ⟨0, PitchToMidi.bandLow (spectrumSize - 1),
        PitchToMidi.bandHigh (spectrumSize - 1)⟩ :=
  (claim10_loudest_band_selection (fun _ => 0) (fun _ _ => le_rfl)).2.2.2

end PitchToMidi
